import Mathlib

set_option maxHeartbeats 1000000

/-!
Shallow embedding of the serverless-client-s3 plugin (src/index.js).

The plugin validates its configuration, reconciles an S3 bucket
(discover, drain, create, configure website, configure policy) and then
recursively uploads a local directory tree.  External collaborators
(the S3 API, the filesystem, the mime lookup table) are modelled from
their documented behaviour; everything else is translated directly from
the JavaScript source.
-/

namespace ServerlessClientS3

/-- JavaScript strings are modelled as lists of characters. -/
abbrev JStr := List Char

/-- The backslash character. -/
abbrev bsl : Char := Char.ofNat 92

/-- The forward slash character. -/
abbrev fsl : Char := Char.ofNat 47

/-- Coerce a Lean string literal to the JavaScript string model. -/
def jstr (s : String) : JStr := s.data

/-- Split a string at the first occurrence of a pattern, returning the part
before the match and the part after it.  This models the search performed by
the JavaScript `String.replace(pattern, replacement)` method, which replaces
only the first occurrence of a string pattern. -/
def splitFirst (pat : JStr) : JStr → Option (JStr × JStr)
  | [] => none
  | c :: rest =>
    if pat.isPrefixOf (c :: rest) then some ([], (c :: rest).drop pat.length)
    else
      match splitFirst pat rest with
      | some (pre, post) => some (c :: pre, post)
      | none => none

/-- JavaScript `s.replace(pat, repl)` with a string pattern: replace the
first occurrence of `pat` in `s` by `repl`; leave `s` unchanged when `pat`
does not occur. -/
def replaceFirst (pat repl s : JStr) : JStr :=
  match splitFirst pat s with
  | some (pre, post) => pre ++ repl ++ post
  | none => s

/-- Object key computed by `_uploadFile` (src/index.js line 205):
`filePath.replace(clientPath, '').substr(1).replace('\\', '/')`.
Note that both `replace` calls replace only the first occurrence. -/
def fileKey (clientPath filePath : JStr) : JStr :=
  replaceFirst [bsl] [fsl] ((replaceFirst clientPath [] filePath).drop 1)

/-- Remote key as described by the specification: the local path with the
root prefix (and the separator that follows it) stripped and every path
separator normalized to a forward slash. -/
def specRemoteKey (root p : JStr) : JStr :=
  ((p.drop root.length).drop 1).map (fun c => if c = bsl then fsl else c)

/-- Extension extraction as performed by the mime package (version 1):
everything following the last dot, forward slash or backslash in the path. -/
def extOf (p : JStr) : JStr :=
  p.foldl
    (fun acc c =>
      if c = '.' ∨ c = fsl ∨ c = bsl then [] else acc ++ [c])
    []

/-- Modelled from the mime package (version 1) used by `_uploadFile`:
a lookup table from lowercased file extensions to media types. -/
def mimeTypes : List (JStr × String) :=
  [(jstr "js", "application/javascript"),
   (jstr "html", "text/html"),
   (jstr "css", "text/css"),
   (jstr "json", "application/json"),
   (jstr "png", "image/png"),
   (jstr "txt", "text/plain")]

/-- Modelled from the mime package (version 1): `mime.lookup(path)` resolves
the extracted extension through the table and falls back to the generic
binary type `application/octet-stream` when the extension is unrecognized. -/
def mimeLookup (p : JStr) : String :=
  (mimeTypes.lookup ((extOf p).map Char.toLower)).getD "application/octet-stream"

/-- A local filesystem tree: regular files carry their contents as bytes,
directories carry their entries. -/
inductive FsTree where
  | file (name : JStr) (contents : List Nat)
  | dir (name : JStr) (entries : List FsTree)

/-- Name of a filesystem entry. -/
def FsTree.name : FsTree → JStr
  | .file n _ => n
  | .dir n _ => n

/-- Full path of a child entry, as produced by `path.join(directoryPath, file)`
with separator `sep`. -/
def childPath (sep : Char) (d n : JStr) : JStr := d ++ sep :: n

/-- All regular files below a directory (whose path is `d`) with their full
paths and contents, in traversal order. -/
def filesOf (sep : Char) (d : JStr) : List FsTree → List (JStr × List Nat)
  | [] => []
  | .file n c :: rest => (childPath sep d n, c) :: filesOf sep d rest
  | .dir n es :: rest => filesOf sep (childPath sep d n) es ++ filesOf sep d rest

/-- All regular files below a directory as root-relative component lists,
paired with their contents. -/
def filesRel : List FsTree → List (List JStr × List Nat)
  | [] => []
  | .file n c :: rest => ([n], c) :: filesRel rest
  | .dir n es :: rest => (filesRel es).map (fun f => (n :: f.1, f.2)) ++ filesRel rest

/-- Join path components with a separator character. -/
def joinComps (sep : Char) : List JStr → JStr
  | [] => []
  | [x] => x
  | x :: y :: r => x ++ sep :: joinComps sep (y :: r)

/-- A restricted entry name: non-empty and free of the separator, of forward
slashes and of backslashes.  Separator-freeness (and, under a backslash
separator, slash-freeness) is what a real filesystem already guarantees;
backslash-freeness under a forward-slash separator is a genuine extra
restriction — POSIX filenames may contain backslashes, and on such names
the key computation yields a leading separator or colliding keys, as the
concrete refutations below show — so this predicate guards only the
conjuncts that are false without it. -/
def goodNameB (sep : Char) (n : JStr) : Bool :=
  !n.isEmpty && n.all (fun c => c != sep && c != fsl && c != bsl)

/-- Well-formed directory listing: every name is good, sibling names are
pairwise distinct, and subdirectories are recursively well formed. -/
def wfEntries (sep : Char) : List FsTree → Bool
  | [] => true
  | .file n _ :: rest =>
      goodNameB sep n && rest.all (fun x => x.name != n) && wfEntries sep rest
  | .dir n es :: rest =>
      goodNameB sep n && wfEntries sep es &&
        rest.all (fun x => x.name != n) && wfEntries sep rest

/-- Body of a put-object request: the bytes read from the file, or the
undefined value passed through when `fs.readFile` reported an error and the
callback ignored it. -/
inductive Body where
  | bytes (b : List Nat)
  | undef
deriving DecidableEq

/-- The bucket policy document built by `configurePolicyForBucket`
(src/index.js lines 146-160); the code sends its JSON serialization. -/
structure PolicyDoc where
  version : String
  id : String
  sid : String
  effect : String
  principalAWS : String
  action : String
  resource : String
deriving DecidableEq

/-- The policy document the plugin builds for a bucket: public read of every
object for all principals. -/
def bucketPolicy (b : String) : PolicyDoc :=
  ⟨"2008-10-17", "Policy1392681112290", "Stmt1392681101677", "Allow", "*",
    "s3:GetObject", "arn:aws:s3:::" ++ b ++ "/*"⟩

/-- Remote-store calls issued by the plugin, with their parameters. -/
inductive Call where
  | listBuckets
  | listObjects (bucket : String)
  | deleteObjects (bucket : String) (keys : List JStr)
  | createBucket (bucket : String)
  | putBucketWebsite (bucket : String) (indexDoc errorDoc : String)
  | putBucketPolicy (bucket : String) (policy : PolicyDoc)
  | putObject (bucket : String) (key : JStr) (body : Body) (contentType : String)
deriving DecidableEq

/-- Observable events of the upload pipeline: a remote call, or the unguarded
`stats.isDirectory()` access on the undefined stats value that the `fs.stat`
callback performs when the stat failed (src/index.js lines 193-198 ignore
`err`). -/
inductive UploadEvent where
  | call (c : Call)
  | undefinedStatsAccess (path : JStr)
deriving DecidableEq

/-- Event produced by `_uploadFile` (src/index.js lines 203-222): the key is
computed from the path, the body is the file's bytes unless the read failed
(`readFails` true), in which case the ignored error leaves the body
undefined; a put-object call is issued either way. -/
def uploadFileEvent (clientPath : JStr) (bucket : String) (readFails : JStr → Bool)
    (p : JStr) (c : List Nat) : UploadEvent :=
  .call (.putObject bucket (fileKey clientPath p)
    (if readFails p then Body.undef else Body.bytes c) (mimeLookup p))

/-- Events produced by `_uploadDirectory` (src/index.js lines 183-201) on a
directory whose path is `d` and whose entries are `es`: each entry is
stat-ed; when the stat fails the callback dereferences the undefined stats
value; otherwise directories are recursed into and regular files are
uploaded.  `statFails` and `readFails` say which filesystem calls fail. -/
def uploadDirectory (clientPath : JStr) (bucket : String) (sep : Char)
    (statFails readFails : JStr → Bool) (d : JStr) : List FsTree → List UploadEvent
  | [] => []
  | .file n c :: rest =>
      (if statFails (childPath sep d n) then
        [UploadEvent.undefinedStatsAccess (childPath sep d n)]
      else
        [uploadFileEvent clientPath bucket readFails (childPath sep d n) c]) ++
      uploadDirectory clientPath bucket sep statFails readFails d rest
  | .dir n es :: rest =>
      (if statFails (childPath sep d n) then
        [UploadEvent.undefinedStatsAccess (childPath sep d n)]
      else
        uploadDirectory clientPath bucket sep statFails readFails (childPath sep d n) es) ++
      uploadDirectory clientPath bucket sep statFails readFails d rest

/-- State of one bucket in the modelled object store. -/
structure BucketState where
  objects : List JStr
  website : Option (String × String)
  policy : Option PolicyDoc
deriving DecidableEq

/-- State of the modelled object store: the visible buckets with their
states.  Bucket lookups take the first entry with a matching name. -/
structure S3State where
  buckets : List (String × BucketState)
deriving DecidableEq

/-- Update the first bucket with the given name, leaving the rest alone. -/
def updateBucket (b : String) (f : BucketState → BucketState) :
    List (String × BucketState) → List (String × BucketState)
  | [] => []
  | (n, st) :: rest =>
      if n = b then (n, f st) :: rest else (n, st) :: updateBucket b f rest

/-- Modelled S3 `listObjects`: the keys currently in the bucket. -/
def listObjectKeys (s : S3State) (b : String) : List JStr :=
  ((s.buckets.lookup b).map BucketState.objects).getD []

/-- Modelled S3 `deleteObjects`: remove the listed keys from the bucket. -/
def applyDeleteObjects (s : S3State) (b : String) (keys : List JStr) : S3State :=
  ⟨updateBucket b (fun st => ⟨st.objects.filter (fun k => !keys.contains k),
    st.website, st.policy⟩) s.buckets⟩

/-- Modelled S3 `createBucket`: add an empty, unconfigured bucket when the
name is not yet taken. -/
def applyCreateBucket (s : S3State) (b : String) : S3State :=
  if (s.buckets.lookup b).isSome then s else ⟨(b, ⟨[], none, none⟩) :: s.buckets⟩

/-- Modelled S3 `putBucketWebsite`: set the website configuration. -/
def applyPutBucketWebsite (s : S3State) (b : String) (idx err : String) : S3State :=
  ⟨updateBucket b (fun st => ⟨st.objects, some (idx, err), st.policy⟩) s.buckets⟩

/-- Modelled S3 `putBucketPolicy`: set the bucket policy. -/
def applyPutBucketPolicy (s : S3State) (b : String) (p : PolicyDoc) : S3State :=
  ⟨updateBucket b (fun st => ⟨st.objects, st.website, some p⟩) s.buckets⟩

/-- The discover step of `_processDeployment` (src/index.js lines 77-84):
`bucketExists` becomes true exactly when some listed bucket's name equals
the configured bucket name. -/
def bucketExistsFlag (b : String) (s : S3State) : Bool :=
  s.buckets.any (fun p => p.1 == b)

/-- The bucket-reconciliation chain of `_processDeployment` (src/index.js
lines 170-177): list buckets, then conditionally list and batch-delete the
bucket's objects, conditionally create the bucket, and unconditionally set
the website configuration and the policy.  Returns the final store state and
the trace of remote calls in the order they are issued. -/
def reconcile (b : String) (s0 : S3State) : S3State × List Call :=
  let ex := bucketExistsFlag b s0
  let contents := if ex then listObjectKeys s0 b else []
  let s1 := if ex && !contents.isEmpty then applyDeleteObjects s0 b contents else s0
  let s2 := if ex then s1 else applyCreateBucket s1 b
  let s3 := applyPutBucketWebsite s2 b "index.html" "error.html"
  let s4 := applyPutBucketPolicy s3 b (bucketPolicy b)
  (s4,
    [Call.listBuckets] ++
    (if ex then [Call.listObjects b] else []) ++
    (if ex && !contents.isEmpty then [Call.deleteObjects b contents] else []) ++
    (if ex then [] else [Call.createBucket b]) ++
    [Call.putBucketWebsite b "index.html" "error.html",
     Call.putBucketPolicy b (bucketPolicy b)])

/-- Errors raised by `_validateAndPrepare` (src/index.js lines 53-70). -/
inductive DeployError where
  | missingBuildOutput
  | missingConfiguration
deriving DecidableEq

/-- Message carried by each validation error in the source. -/
def DeployError.message : DeployError → String
  | .missingBuildOutput => "Could not find \"client/dist\" folder in your project root."
  | .missingConfiguration => "Please specify a bucket name for the client in serverless.yml."

/-- Client section of the serverless custom configuration. -/
structure ClientCfg where
  bucketName : String

/-- Custom section of the serverless configuration. -/
structure CustomCfg where
  client : Option ClientCfg

/-- The slice of the serverless host state that `_validateAndPrepare` reads:
whether `servicePath/client/dist` exists, the custom configuration, and the
service path itself. -/
structure ServerlessCfg where
  servicePath : JStr
  distExists : Bool
  custom : Option CustomCfg

/-- The `client/dist` path joined below the service path. -/
def clientPathOf (sep : Char) (c : ServerlessCfg) : JStr :=
  c.servicePath ++ sep :: (jstr "client" ++ sep :: jstr "dist")

/-- Translation of `_validateAndPrepare` (src/index.js lines 53-70): reject
when the `client/dist` directory is absent, then reject when the
`custom.client.bucketName` chain is missing or empty (a falsy bucket name),
otherwise return the bucket name. -/
def validateAndPrepare (c : ServerlessCfg) : Except DeployError String :=
  if !c.distExists then .error .missingBuildOutput
  else
    match c.custom with
    | none => .error .missingConfiguration
    | some cu =>
      match cu.client with
      | none => .error .missingConfiguration
      | some cl =>
        if cl.bucketName = "" then .error .missingConfiguration else .ok cl.bucketName

/-- Translation of the `client:deploy:deploy` hook (src/index.js lines
44-47): validation followed, on success only, by `_processDeployment`, which
chains the reconciliation calls and then `_uploadDirectory(clientPath)`.
The result is what the caller of the promise chain observes, paired with the
trace of all events; `_uploadDirectory` returns without waiting for its
uploads, so the chain resolves successfully whatever `statFails` and
`readFails` say. -/
def run (c : ServerlessCfg) (sep : Char) (s : S3State) (tree : List FsTree)
    (statFails readFails : JStr → Bool) :
    Except DeployError Unit × List UploadEvent :=
  match validateAndPrepare c with
  | .error e => (.error e, [])
  | .ok bn =>
      ((Except.ok ()),
        ((reconcile bn s).2.map UploadEvent.call) ++
        uploadDirectory (clientPathOf sep c) bn sep statFails readFails
          (clientPathOf sep c) tree)

theorem isPrefixOf_append (a b : JStr) : a.isPrefixOf (a ++ b) = true := by
  induction a with
  | nil => simp [List.isPrefixOf]
  | cons c t ih => simp [List.isPrefixOf, ih]

theorem splitFirst_self_append (cp : JStr) (c : Char) (t : JStr) :
    splitFirst cp (cp ++ c :: t) = some ([], c :: t) := by
  cases cp with
  | nil => simp [splitFirst, List.isPrefixOf]
  | cons a tl =>
    have h1 : (a :: tl).isPrefixOf ((a :: tl) ++ c :: t) = true := isPrefixOf_append _ _
    have h2 : ((a :: tl) ++ c :: t).drop (a :: tl).length = c :: t := List.drop_left _ _
    simp only [List.cons_append] at h1 h2 ⊢
    simp [splitFirst, h1, h2]

theorem replaceFirst_self_append (cp : JStr) (c : Char) (t : JStr) :
    replaceFirst cp [] (cp ++ c :: t) = c :: t := by
  simp [replaceFirst, splitFirst_self_append]

theorem fileKey_strip (cp rel : JStr) (sep : Char) :
    fileKey cp (cp ++ sep :: rel) = replaceFirst [bsl] [fsl] rel := by
  simp [fileKey, replaceFirst_self_append]

theorem splitFirst_single_of_not_mem {c : Char} {s : JStr} (h : c ∉ s) :
    splitFirst [c] s = none := by
  induction s with
  | nil => rfl
  | cons a t ih =>
    have h1 : c ≠ a := fun e => h (e ▸ List.mem_cons_self a t)
    have h2 : c ∉ t := fun m => h (List.mem_cons_of_mem a m)
    have hpre : ([c].isPrefixOf (a :: t)) = false := by
      simp [List.isPrefixOf, h1]
    simp [splitFirst, hpre, ih h2]

theorem replaceFirst_single_of_not_mem {c : Char} (r : JStr) {s : JStr} (h : c ∉ s) :
    replaceFirst [c] r s = s := by
  simp [replaceFirst, splitFirst_single_of_not_mem h]

theorem splitFirst_single_append {c : Char} {x : JStr} (h : c ∉ x) (u : JStr) :
    splitFirst [c] (x ++ c :: u) = some (x, u) := by
  induction x with
  | nil => simp [splitFirst, List.isPrefixOf]
  | cons a t ih =>
    have h1 : c ≠ a := fun e => h (e ▸ List.mem_cons_self a t)
    have h2 : c ∉ t := fun m => h (List.mem_cons_of_mem a m)
    have hpre : ([c].isPrefixOf (a :: (t ++ c :: u))) = false := by
      simp [List.isPrefixOf, h1]
    simp [splitFirst, hpre, ih h2]

theorem replaceFirst_single_append {c : Char} (r : JStr) {x : JStr} (h : c ∉ x) (u : JStr) :
    replaceFirst [c] r (x ++ c :: u) = x ++ r ++ u := by
  simp [replaceFirst, splitFirst_single_append h]

theorem exists_first_occurrence {c : Char} {s : JStr} (h : c ∈ s) :
    ∃ x u, s = x ++ c :: u ∧ c ∉ x := by
  induction s with
  | nil => cases h
  | cons a t ih =>
    by_cases hca : c = a
    · exact ⟨[], t, by simp [hca], by simp⟩
    · have hct : c ∈ t := by
        rcases List.mem_cons.mp h with h' | h'
        · exact absurd h' hca
        · exact h'
      obtain ⟨x, u, he, hx⟩ := ih hct
      exact ⟨a :: x, u, by rw [he, List.cons_append], by simp [hca, hx]⟩

theorem append_sep_inj {sep : Char} :
    ∀ {x : JStr} {y u v : JStr}, sep ∉ x → sep ∉ y →
      x ++ sep :: u = y ++ sep :: v → x = y ∧ u = v := by
  intro x
  induction x with
  | nil =>
    intro y u v _ hy h
    cases y with
    | nil => simpa using h
    | cons b yt =>
      rw [List.nil_append, List.cons_append] at h
      have hb : sep = b := (List.cons.injEq _ _ _ _ ▸ h).1
      exact absurd (hb ▸ List.mem_cons_self b yt) hy
  | cons a xt ih =>
    intro y u v hx hy h
    cases y with
    | nil =>
      rw [List.nil_append, List.cons_append] at h
      have hb : a = sep := (List.cons.injEq _ _ _ _ ▸ h).1
      exact absurd (hb ▸ List.mem_cons_self a xt) (hb ▸ hx)
    | cons b yt =>
      rw [List.cons_append, List.cons_append] at h
      have hab : a = b := (List.cons.injEq _ _ _ _ ▸ h).1
      have htl : xt ++ sep :: u = yt ++ sep :: v := (List.cons.injEq _ _ _ _ ▸ h).2
      have hx' : sep ∉ xt := fun m => hx (List.mem_cons_of_mem a m)
      have hy' : sep ∉ yt := fun m => hy (List.mem_cons_of_mem b m)
      obtain ⟨h1, h2⟩ := ih hx' hy' htl
      exact ⟨by rw [hab, h1], h2⟩

theorem replaceFirst_bsl_inj {a b : JStr} (ha : fsl ∉ a) (hb : fsl ∉ b)
    (h : replaceFirst [bsl] [fsl] a = replaceFirst [bsl] [fsl] b) : a = b := by
  by_cases hma : bsl ∈ a <;> by_cases hmb : bsl ∈ b
  · obtain ⟨x, u, rfl, hx⟩ := exists_first_occurrence hma
    obtain ⟨y, v, rfl, hy⟩ := exists_first_occurrence hmb
    rw [replaceFirst_single_append _ hx, replaceFirst_single_append _ hy] at h
    have hx' : fsl ∉ x := fun m => ha (List.mem_append_left _ m)
    have hy' : fsl ∉ y := fun m => hb (List.mem_append_left _ m)
    simp only [List.append_assoc, List.singleton_append] at h
    obtain ⟨h1, h2⟩ := append_sep_inj hx' hy' h
    rw [h1, h2]
  · obtain ⟨x, u, rfl, hx⟩ := exists_first_occurrence hma
    rw [replaceFirst_single_append _ hx, replaceFirst_single_of_not_mem _ hmb] at h
    have : fsl ∈ b := by
      rw [← h]; simp
    exact absurd this hb
  · obtain ⟨y, v, rfl, hy⟩ := exists_first_occurrence hmb
    rw [replaceFirst_single_of_not_mem _ hma, replaceFirst_single_append _ hy] at h
    have : fsl ∈ a := by
      rw [h]; simp
    exact absurd this ha
  · rw [replaceFirst_single_of_not_mem _ hma, replaceFirst_single_of_not_mem _ hmb] at h
    exact h

theorem treeListInd {motive : List FsTree → Prop}
    (h0 : motive [])
    (hf : ∀ n c rest, motive rest → motive (.file n c :: rest))
    (hd : ∀ n es rest, motive es → motive rest → motive (.dir n es :: rest)) :
    ∀ l, motive l
  | [] => h0
  | .file n c :: rest => hf n c rest (treeListInd h0 hf hd rest)
  | .dir n es :: rest => hd n es rest (treeListInd h0 hf hd es) (treeListInd h0 hf hd rest)

theorem joinComps_cons (sep : Char) (n : JStr) {comps : List JStr} (h : comps ≠ []) :
    joinComps sep (n :: comps) = n ++ sep :: joinComps sep comps := by
  cases comps with
  | nil => exact absurd rfl h
  | cons y r => rfl

theorem not_mem_joinComps {c sep : Char} (hcs : c ≠ sep) :
    ∀ {l : List JStr}, (∀ x ∈ l, c ∉ x) → c ∉ joinComps sep l := by
  intro l
  induction l with
  | nil => intro _; simp [joinComps]
  | cons x r ih =>
    intro h
    cases r with
    | nil => simpa [joinComps] using h x (by simp)
    | cons y t =>
      have hx : c ∉ x := h x (by simp)
      have hr : c ∉ joinComps sep (y :: t) := ih (fun z hz => h z (by simp [hz]))
      show c ∉ joinComps sep (x :: y :: t)
      rw [joinComps]
      simp only [List.mem_append, List.mem_cons]
      rintro (hcx | hcsep | hcj)
      · exact hx hcx
      · exact hcs hcsep
      · exact hr hcj

theorem joinComps_inj {sep : Char} :
    ∀ {a b : List JStr}, (∀ x ∈ a, x ≠ [] ∧ sep ∉ x) → (∀ x ∈ b, x ≠ [] ∧ sep ∉ x) →
      joinComps sep a = joinComps sep b → a = b := by
  intro a
  induction a with
  | nil =>
    intro b _ hb h
    cases b with
    | nil => rfl
    | cons y ys =>
      exfalso
      cases ys with
      | nil =>
        simp [joinComps] at h
        exact (hb y (by simp)).1 h
      | cons z zs => simp [joinComps] at h
  | cons x xs ih =>
    intro b ha hb h
    cases b with
    | nil =>
      exfalso
      cases xs with
      | nil =>
        simp [joinComps] at h
        exact (ha x (by simp)).1 h
      | cons w ws => simp [joinComps] at h
    | cons y ys =>
      cases xs with
      | nil =>
        cases ys with
        | nil => simpa [joinComps] using h
        | cons z zs =>
          exfalso
          simp only [joinComps] at h
          have : sep ∈ x := by
            rw [h]; simp
          exact (ha x (by simp)).2 this
      | cons w ws =>
        cases ys with
        | nil =>
          exfalso
          simp only [joinComps] at h
          have : sep ∈ y := by
            rw [← h]; simp
          exact (hb y (by simp)).2 this
        | cons z zs =>
          simp only [joinComps] at h
          obtain ⟨h1, h2⟩ :=
            append_sep_inj (ha x (by simp)).2 (hb y (by simp)).2 h
          have h3 : (w :: ws) = (z :: zs) :=
            ih (fun u hu => ha u (by simp [hu])) (fun u hu => hb u (by simp [hu])) h2
          rw [h1, h3]

theorem filesRel_fst_ne_nil (es : List FsTree) : ∀ f ∈ filesRel es, f.1 ≠ [] := by
  induction es using treeListInd with
  | h0 => simp [filesRel]
  | hf n c rest ih =>
    intro f hf'
    simp only [filesRel] at hf'
    rcases List.mem_cons.mp hf' with h | h
    · rw [h]; simp
    · exact ih f h
  | hd n es rest ihes ihrest =>
    intro f hf'
    simp only [filesRel] at hf'
    rcases List.mem_append.mp hf' with h | h
    · obtain ⟨g, _, rfl⟩ := List.mem_map.mp h
      simp
    · exact ihrest f h

theorem filesRel_head (es : List FsTree) :
    ∀ f ∈ filesRel es, ∃ e ∈ es, f.1.head? = some e.name := by
  induction es using treeListInd with
  | h0 => simp [filesRel]
  | hf n c rest ih =>
    intro f hf'
    simp only [filesRel] at hf'
    rcases List.mem_cons.mp hf' with h | h
    · exact ⟨.file n c, by simp, by rw [h]; rfl⟩
    · obtain ⟨e, he, hh⟩ := ih f h
      exact ⟨e, by simp [he], hh⟩
  | hd n es rest ihes ihrest =>
    intro f hf'
    simp only [filesRel] at hf'
    rcases List.mem_append.mp hf' with h | h
    · obtain ⟨g, _, rfl⟩ := List.mem_map.mp h
      exact ⟨.dir n es, by simp, rfl⟩
    · obtain ⟨e, he, hh⟩ := ihrest f h
      exact ⟨e, by simp [he], hh⟩

theorem goodNameB_spec {sep : Char} {n : JStr} (h : goodNameB sep n = true) :
    n ≠ [] ∧ ∀ c ∈ n, c ≠ sep ∧ c ≠ fsl ∧ c ≠ bsl := by
  simp only [goodNameB, Bool.and_eq_true, Bool.not_eq_true',
    List.all_eq_true, bne_iff_ne, ne_eq] at h
  obtain ⟨h1, h2⟩ := h
  refine ⟨fun hn => by simp [hn] at h1, fun c hc => ⟨(h2 c hc).1.1, (h2 c hc).1.2, (h2 c hc).2⟩⟩

theorem filesRel_good {sep : Char} :
    ∀ es : List FsTree, wfEntries sep es = true →
      ∀ f ∈ filesRel es, ∀ x ∈ f.1, goodNameB sep x = true := by
  intro es
  induction es using treeListInd with
  | h0 => intro _; simp [filesRel]
  | hf n c rest ih =>
    intro hwf f hfm
    simp only [wfEntries, Bool.and_eq_true] at hwf
    obtain ⟨⟨hg, _⟩, hr⟩ := hwf
    simp only [filesRel] at hfm
    rcases List.mem_cons.mp hfm with h | h
    · intro x hx
      rw [h] at hx
      simp only [List.mem_singleton] at hx
      rw [hx]; exact hg
    · exact ih hr f h
  | hd n es rest ihes ihrest =>
    intro hwf f hfm
    simp only [wfEntries, Bool.and_eq_true] at hwf
    obtain ⟨⟨⟨hg, hes⟩, _⟩, hr⟩ := hwf
    simp only [filesRel] at hfm
    rcases List.mem_append.mp hfm with h | h
    · obtain ⟨g, hg', rfl⟩ := List.mem_map.mp h
      intro x hx
      rcases List.mem_cons.mp hx with hxn | hxg
      · rw [hxn]; exact hg
      · exact ihes hes g hg' x hxg
    · exact ihrest hr f h

theorem filesRel_nodup {sep : Char} :
    ∀ es : List FsTree, wfEntries sep es = true →
      ((filesRel es).map Prod.fst).Nodup := by
  intro es
  induction es using treeListInd with
  | h0 => intro _; simp [filesRel]
  | hf n c rest ih =>
    intro hwf
    simp only [wfEntries, Bool.and_eq_true] at hwf
    obtain ⟨⟨_, hall⟩, hr⟩ := hwf
    simp only [List.all_eq_true, bne_iff_ne, ne_eq] at hall
    simp only [filesRel, List.map_cons]
    refine List.nodup_cons.mpr ⟨?_, ih hr⟩
    intro hmem
    obtain ⟨f, hf', hEq⟩ := List.mem_map.mp hmem
    obtain ⟨e, he, hh⟩ := filesRel_head rest f hf'
    rw [hEq] at hh
    simp only [List.head?_cons, Option.some.injEq] at hh
    exact hall e he hh.symm
  | hd n es rest ihes ihrest =>
    intro hwf
    simp only [wfEntries, Bool.and_eq_true] at hwf
    obtain ⟨⟨⟨_, hes⟩, hall⟩, hr⟩ := hwf
    simp only [List.all_eq_true, bne_iff_ne, ne_eq] at hall
    simp only [filesRel, List.map_append, List.map_map]
    refine List.Nodup.append ?_ (ihrest hr) ?_
    · have h1 : (((filesRel es).map Prod.fst).map (List.cons n)).Nodup :=
        (ihes hes).map List.cons_injective
      have h2 : ((filesRel es).map (fun f => n :: f.1)).Nodup := by
        simpa [List.map_map, Function.comp_def] using h1
      exact h2
    · intro a ha hb
      obtain ⟨g, _, hEq⟩ := List.mem_map.mp ha
      obtain ⟨f, hf', hEq'⟩ := List.mem_map.mp hb
      obtain ⟨e, he, hh⟩ := filesRel_head rest f hf'
      rw [hEq'] at hh
      rw [← hEq] at hh
      simp only [Function.comp_apply, List.head?_cons, Option.some.injEq] at hh
      exact hall e he hh.symm

theorem filesOf_eq (sep : Char) :
    ∀ es : List FsTree, ∀ d : JStr,
      filesOf sep d es =
        (filesRel es).map (fun f => (d ++ sep :: joinComps sep f.1, f.2)) := by
  intro es
  induction es using treeListInd with
  | h0 => intro d; simp [filesOf, filesRel]
  | hf n c rest ih =>
    intro d
    simp [filesOf, filesRel, ih, childPath, joinComps]
  | hd n es rest ihes ihrest =>
    intro d
    simp only [filesOf, filesRel, ihes, ihrest, childPath, List.map_append, List.map_map]
    congr 1
    apply List.map_congr_left
    intro f hf'
    have hne : f.1 ≠ [] := filesRel_fst_ne_nil es f hf'
    simp [joinComps_cons sep n hne, List.append_assoc, List.cons_append]

theorem filesRel_good_spec {sep : Char} (es : List FsTree)
    (hwf : wfEntries sep es = true) :
    ∀ f ∈ filesRel es, ∀ u ∈ f.1,
      u ≠ [] ∧ ∀ c ∈ u, c ≠ sep ∧ c ≠ fsl ∧ c ≠ bsl :=
  fun f hf u hu => goodNameB_spec (filesRel_good es hwf f hf u hu)

theorem joinComps_head (sep : Char) (x : JStr) (xs : List JStr) :
    ∃ t, joinComps sep (x :: xs) = x ++ t := by
  cases xs with
  | nil => exact ⟨[], by simp [joinComps]⟩
  | cons y r => exact ⟨sep :: joinComps sep (y :: r), rfl⟩

theorem replaceFirst_head {c r a : Char} {t : JStr} (h : a ≠ c) :
    replaceFirst [c] [r] (a :: t) = a :: replaceFirst [c] [r] t := by
  have hpre : ([c].isPrefixOf (a :: t)) = false := by
    simp [List.isPrefixOf]
    exact fun e => h e.symm
  cases hsp : splitFirst [c] t with
  | none => simp [replaceFirst, splitFirst, hpre, hsp]
  | some pr =>
    obtain ⟨pre, post⟩ := pr
    simp [replaceFirst, splitFirst, hpre, hsp]

theorem key_inj {sep : Char} {x y : List JStr}
    (hx : ∀ u ∈ x, u ≠ [] ∧ ∀ c ∈ u, c ≠ sep ∧ c ≠ fsl ∧ c ≠ bsl)
    (hy : ∀ u ∈ y, u ≠ [] ∧ ∀ c ∈ u, c ≠ sep ∧ c ≠ fsl ∧ c ≠ bsl)
    (h : replaceFirst [bsl] [fsl] (joinComps sep x) =
      replaceFirst [bsl] [fsl] (joinComps sep y)) :
    x = y := by
  by_cases hsep : sep = bsl
  · have hfx : fsl ∉ joinComps sep x :=
      not_mem_joinComps (by rw [hsep]; decide)
        (fun u hu hc => ((hx u hu).2 fsl hc).2.1 rfl)
    have hfy : fsl ∉ joinComps sep y :=
      not_mem_joinComps (by rw [hsep]; decide)
        (fun u hu hc => ((hy u hu).2 fsl hc).2.1 rfl)
    have hj := replaceFirst_bsl_inj hfx hfy h
    exact joinComps_inj
      (fun u hu => ⟨(hx u hu).1, fun hc => ((hx u hu).2 sep hc).1 rfl⟩)
      (fun u hu => ⟨(hy u hu).1, fun hc => ((hy u hu).2 sep hc).1 rfl⟩) hj
  · have hbx : bsl ∉ joinComps sep x :=
      not_mem_joinComps (fun e => hsep e.symm)
        (fun u hu hc => ((hx u hu).2 bsl hc).2.2 rfl)
    have hby : bsl ∉ joinComps sep y :=
      not_mem_joinComps (fun e => hsep e.symm)
        (fun u hu hc => ((hy u hu).2 bsl hc).2.2 rfl)
    rw [replaceFirst_single_of_not_mem _ hbx, replaceFirst_single_of_not_mem _ hby] at h
    exact joinComps_inj
      (fun u hu => ⟨(hx u hu).1, fun hc => ((hx u hu).2 sep hc).1 rfl⟩)
      (fun u hu => ⟨(hy u hu).1, fun hc => ((hy u hu).2 sep hc).1 rfl⟩) h

theorem fileKeys_nodup {sep : Char} (cp : JStr) (es : List FsTree)
    (hwf : wfEntries sep es = true) :
    ((filesOf sep cp es).map (fun f => fileKey cp f.1)).Nodup := by
  rw [filesOf_eq, List.map_map]
  have hkey : ∀ f ∈ filesRel es,
      ((fun f : JStr × List Nat => fileKey cp f.1) ∘
        fun f : List JStr × List Nat => (cp ++ sep :: joinComps sep f.1, f.2)) f =
        replaceFirst [bsl] [fsl] (joinComps sep f.1) := by
    intro f _
    simp [Function.comp_apply, fileKey_strip]
  rw [List.map_congr_left hkey]
  have hnod : ((((filesRel es).map Prod.fst)).map
      (fun comps => replaceFirst [bsl] [fsl] (joinComps sep comps))).Nodup := by
    apply List.Nodup.map_on ?_ (filesRel_nodup es hwf)
    intro a ham b hbm hab
    obtain ⟨fa, hfa, rfl⟩ := List.mem_map.mp ham
    obtain ⟨fb, hfb, rfl⟩ := List.mem_map.mp hbm
    exact key_inj (filesRel_good_spec es hwf fa hfa) (filesRel_good_spec es hwf fb hfb) hab
  simpa [List.map_map, Function.comp_def] using hnod

theorem uploadDirectory_eq (cp : JStr) (bn : String) (sep : Char) (rf : JStr → Bool) :
    ∀ es : List FsTree, ∀ d : JStr,
      uploadDirectory cp bn sep (fun _ => false) rf d es =
        (filesOf sep d es).map (fun f =>
          UploadEvent.call (Call.putObject bn (fileKey cp f.1)
            (if rf f.1 then Body.undef else Body.bytes f.2) (mimeLookup f.1))) := by
  intro es
  induction es using treeListInd with
  | h0 => intro d; simp [uploadDirectory, filesOf]
  | hf n c rest ih => intro d; simp [uploadDirectory, filesOf, uploadFileEvent, ih]
  | hd n es rest ihes ihrest => intro d; simp [uploadDirectory, filesOf, ihes, ihrest]

theorem lookup_updateBucket_self (b : String) (f : BucketState → BucketState) :
    ∀ l : List (String × BucketState),
      (updateBucket b f l).lookup b = (l.lookup b).map f := by
  intro l
  induction l with
  | nil => rfl
  | cons p rest ih =>
    obtain ⟨n, st⟩ := p
    by_cases hnb : n = b
    · subst hnb
      simp [updateBucket, List.lookup]
    · have hbn : (b == n) = false := by
        simp [Ne.symm hnb]
      simp [updateBucket, hnb, List.lookup, hbn, ih]

theorem updateBucket_of_lookup_none (b : String) (f : BucketState → BucketState) :
    ∀ l : List (String × BucketState), l.lookup b = none → updateBucket b f l = l := by
  intro l
  induction l with
  | nil => intro _; rfl
  | cons p rest ih =>
    obtain ⟨n, st⟩ := p
    intro h
    by_cases hnb : n = b
    · subst hnb
      simp [List.lookup] at h
    · have hbn : (b == n) = false := by
        simp [Ne.symm hnb]
      simp only [List.lookup, hbn] at h
      simp [updateBucket, hnb, ih h]

theorem updateBucket_of_fix (b : String) (f : BucketState → BucketState) :
    ∀ (l : List (String × BucketState)) (st : BucketState),
      l.lookup b = some st → f st = st → updateBucket b f l = l := by
  intro l
  induction l with
  | nil => intro st h; simp [List.lookup] at h
  | cons p rest ih =>
    obtain ⟨n, st'⟩ := p
    intro st h hfix
    by_cases hnb : n = b
    · subst hnb
      simp only [List.lookup, beq_self_eq_true, Option.some.injEq] at h
      subst h
      simp [updateBucket, hfix]
    · have hbn : (b == n) = false := by
        simp [Ne.symm hnb]
      simp only [List.lookup, hbn] at h
      simp [updateBucket, hnb, ih st h hfix]

theorem bucketExistsFlag_eq_isSome (b : String) (s : S3State) :
    bucketExistsFlag b s = (s.buckets.lookup b).isSome := by
  obtain ⟨l⟩ := s
  induction l with
  | nil => rfl
  | cons p rest ih =>
    obtain ⟨n, st⟩ := p
    by_cases hnb : n = b
    · subst hnb
      simp [bucketExistsFlag, List.lookup]
    · have hbn : (b == n) = false := by
        simp [Ne.symm hnb]
      have hnb' : (n == b) = false := by
        simp [hnb]
      simp only [bucketExistsFlag, List.any_cons, hnb', Bool.false_or, List.lookup, hbn]
      exact ih

theorem filter_not_contains_self (l : List JStr) :
    l.filter (fun k => !l.contains k) = [] := by
  rw [List.filter_eq_nil_iff]
  intro a ha
  simp [ha]

theorem lookup_applyPutBucketWebsite (s : S3State) (b : String) (idx err : String) :
    ((applyPutBucketWebsite s b idx err).buckets.lookup b) =
      (s.buckets.lookup b).map (fun st => ⟨st.objects, some (idx, err), st.policy⟩) :=
  lookup_updateBucket_self b _ s.buckets

theorem lookup_applyPutBucketPolicy (s : S3State) (b : String) (p : PolicyDoc) :
    ((applyPutBucketPolicy s b p).buckets.lookup b) =
      (s.buckets.lookup b).map (fun st => ⟨st.objects, st.website, some p⟩) :=
  lookup_updateBucket_self b _ s.buckets

theorem lookup_applyDeleteObjects (s : S3State) (b : String) (keys : List JStr) :
    ((applyDeleteObjects s b keys).buckets.lookup b) =
      (s.buckets.lookup b).map
        (fun st => ⟨st.objects.filter (fun k => !keys.contains k), st.website, st.policy⟩) :=
  lookup_updateBucket_self b _ s.buckets

theorem lookup_applyCreateBucket_absent (s : S3State) (b : String)
    (h : s.buckets.lookup b = none) :
    (applyCreateBucket s b).buckets.lookup b = some ⟨[], none, none⟩ := by
  simp [applyCreateBucket, h, List.lookup]

theorem reconcile_lookup (b : String) (s : S3State) :
    ((reconcile b s).1).buckets.lookup b =
      some ⟨[], some ("index.html", "error.html"), some (bucketPolicy b)⟩ := by
  by_cases hex : bucketExistsFlag b s = true
  · have hsome : (s.buckets.lookup b).isSome := by
      rw [← bucketExistsFlag_eq_isSome, hex]
    obtain ⟨st, hst⟩ := Option.isSome_iff_exists.mp hsome
    by_cases hne : (listObjectKeys s b).isEmpty
    · have hobj : st.objects = [] := by
        have : listObjectKeys s b = [] := List.isEmpty_iff.mp hne
        simpa [listObjectKeys, hst] using this
      simp [reconcile, hex, hne, lookup_applyPutBucketPolicy,
        lookup_applyPutBucketWebsite, hst, hobj]
    · have hkeys : listObjectKeys s b = st.objects := by
        simp [listObjectKeys, hst]
      have hne' : st.objects ≠ [] := by
        rw [hkeys] at hne
        simpa [List.isEmpty_iff] using hne
      simp [reconcile, hex, hne, hne', lookup_applyPutBucketPolicy,
        lookup_applyPutBucketWebsite, lookup_applyDeleteObjects, hst, hkeys,
        filter_not_contains_self]
  · have hnone : s.buckets.lookup b = none := by
      have h1 := bucketExistsFlag_eq_isSome b s
      rw [Bool.not_eq_true] at hex
      rw [hex] at h1
      cases hlk : s.buckets.lookup b with
      | none => rfl
      | some st => rw [hlk] at h1; simp at h1
    simp [reconcile, hex, lookup_applyPutBucketPolicy, lookup_applyPutBucketWebsite,
      lookup_applyCreateBucket_absent _ _ hnone]

theorem reconcile_fixed (b : String) (t : S3State)
    (hlk : t.buckets.lookup b =
      some ⟨[], some ("index.html", "error.html"), some (bucketPolicy b)⟩) :
    (reconcile b t).1 = t := by
  have hflag : bucketExistsFlag b t = true := by
    rw [bucketExistsFlag_eq_isSome, hlk]
    rfl
  have hobj : listObjectKeys t b = [] := by
    simp [listObjectKeys, hlk]
  have hweb : applyPutBucketWebsite t b "index.html" "error.html" = t := by
    show S3State.mk _ = _
    rw [updateBucket_of_fix b _ _ _ hlk rfl]
  have hpol : applyPutBucketPolicy t b (bucketPolicy b) = t := by
    show S3State.mk _ = _
    rw [updateBucket_of_fix b _ _ _ hlk rfl]
  simp [reconcile, hflag, hobj, hweb, hpol]

theorem reconcile_idem (b : String) (s : S3State) :
    (reconcile b ((reconcile b s).1)).1 = (reconcile b s).1 :=
  reconcile_fixed b _ (reconcile_lookup b s)

/-- Recognizer for batch-delete calls in a trace. -/
def isDeleteCall : Call → Bool
  | .deleteObjects _ _ => true
  | _ => false

/-- C1: for every starting bucket state (absent, present-and-empty,
present-and-nonempty), after reconcile the bucket exists, contains zero
objects, has the fixed website configuration (index document `index.html`,
error document `error.html`) and the fixed public-read policy (allow
`s3:GetObject` to all principals on `arn:aws:s3:::bucketName/*`), and
running reconcile twice in a row yields the same end state as running it
once. -/
theorem c1_reconcile_converges_and_idempotent (b : String) (s : S3State) :
    ((reconcile b s).1).buckets.lookup b =
      some ⟨[], some ("index.html", "error.html"), some (bucketPolicy b)⟩ ∧
    (bucketPolicy b).action = "s3:GetObject" ∧
    (bucketPolicy b).principalAWS = "*" ∧
    (bucketPolicy b).resource = "arn:aws:s3:::" ++ b ++ "/*" ∧
    (reconcile b ((reconcile b s).1)).1 = (reconcile b s).1 :=
  ⟨reconcile_lookup b s, rfl, rfl, rfl, reconcile_idem b s⟩

/-- C2: for every local directory tree, the upload pipeline (with no
filesystem failures) issues exactly one put-object call per regular file
under the root, each with that file's full contents as the body, and no
put-object call for any directory: the event trace is precisely the image
of the file list. -/
theorem c2_one_put_per_file (cp : JStr) (bn : String) (sep : Char)
    (tree : List FsTree) :
    uploadDirectory cp bn sep (fun _ => false) (fun _ => false) cp tree =
      (filesOf sep cp tree).map (fun f =>
        UploadEvent.call (Call.putObject bn (fileKey cp f.1) (Body.bytes f.2)
          (mimeLookup f.1))) := by
  have h := uploadDirectory_eq cp bn sep (fun _ => false) tree cp
  simpa using h

/-- C3: during reconcile, if the bucket exists and its listing is non-empty
then exactly one batch-delete call is issued whose key set is exactly the
listing; if the bucket exists but the listing is empty no batch-delete call
is issued; if the bucket does not exist neither the listing nor the delete
occurs. -/
theorem c3_drain_behaviour (b : String) (s : S3State) :
    (bucketExistsFlag b s = true → listObjectKeys s b ≠ [] →
      (reconcile b s).2.filter isDeleteCall =
        [Call.deleteObjects b (listObjectKeys s b)] ∧
      Call.listObjects b ∈ (reconcile b s).2) ∧
    (bucketExistsFlag b s = true → listObjectKeys s b = [] →
      (∀ bk keys, Call.deleteObjects bk keys ∉ (reconcile b s).2) ∧
      Call.listObjects b ∈ (reconcile b s).2) ∧
    (bucketExistsFlag b s = false →
      (∀ bk, Call.listObjects bk ∉ (reconcile b s).2) ∧
      ∀ bk keys, Call.deleteObjects bk keys ∉ (reconcile b s).2) := by
  refine ⟨?_, ?_, ?_⟩
  · intro hex hne
    have hne' : (listObjectKeys s b).isEmpty = false := by
      cases h : (listObjectKeys s b).isEmpty
      · rfl
      · exact absurd (List.isEmpty_iff.mp h) hne
    constructor
    · simp [reconcile, hex, hne', isDeleteCall]
    · simp [reconcile, hex, hne']
  · intro hex hemp
    have hemp' : (listObjectKeys s b).isEmpty = true := by
      rw [hemp]; rfl
    constructor
    · intro bk keys
      simp [reconcile, hex, hemp', isDeleteCall]
    · simp [reconcile, hex, hemp']
  · intro hex
    constructor
    · intro bk
      simp [reconcile, hex]
    · intro bk keys
      simp [reconcile, hex]

/-- C3 witness: on a bucket holding `old.txt` and `stale.js` the reconcile
trace contains the listing call and exactly one batch delete for exactly
those keys. -/
theorem c3_drain_behaviour_witness :
    (reconcile "site"
        ⟨[("site", ⟨[jstr "old.txt", jstr "stale.js"], none, none⟩)]⟩).2.filter isDeleteCall =
      [Call.deleteObjects "site" [jstr "old.txt", jstr "stale.js"]] ∧
    Call.listObjects "site" ∈
      (reconcile "site" ⟨[("site", ⟨[jstr "old.txt", jstr "stale.js"], none, none⟩)]⟩).2 :=
  (c3_drain_behaviour "site"
    ⟨[("site", ⟨[jstr "old.txt", jstr "stale.js"], none, none⟩)]⟩).1
    (by decide) (by decide)

/-- C7: the exists flag is true exactly when the bucket listing contains a
bucket whose name equals the configured name, and the create-bucket call is
issued exactly when the flag is false. -/
theorem c7_discover_and_create (b : String) (s : S3State) :
    (bucketExistsFlag b s = true ↔ ∃ p ∈ s.buckets, p.1 = b) ∧
    (Call.createBucket b ∈ (reconcile b s).2 ↔ bucketExistsFlag b s = false) := by
  constructor
  · simp [bucketExistsFlag, List.any_eq_true]
  · by_cases hex : bucketExistsFlag b s = true
    · cases hemp : (listObjectKeys s b).isEmpty <;>
        simp [reconcile, hex, hemp]
    · rw [Bool.not_eq_true] at hex
      simp [reconcile, hex]

/-- C7 witness: a matching bucket makes the flag true, and on an empty
store the create-bucket call is issued. -/
theorem c7_discover_and_create_witness :
    bucketExistsFlag "site" ⟨[("site", ⟨[], none, none⟩)]⟩ = true ∧
    Call.createBucket "other" ∈ (reconcile "other" ⟨[]⟩).2 :=
  ⟨(c7_discover_and_create "site" ⟨[("site", ⟨[], none, none⟩)]⟩).1.mpr
      ⟨("site", ⟨[], none, none⟩), by simp, rfl⟩,
    (c7_discover_and_create "other" ⟨[]⟩).2.mpr (by decide)⟩

/-- C6: when the local build directory is absent the run fails with the
missing-build-output error and issues no remote-store event; when the
directory exists but the bucket name is not configured (missing custom
section, missing client section, or falsy empty name) the run fails with
the missing-configuration error and issues no remote-store event. -/
theorem c6_validation_aborts (c : ServerlessCfg) (sep : Char) (s : S3State)
    (tree : List FsTree) (sf rf : JStr → Bool) :
    (c.distExists = false →
      run c sep s tree sf rf = (.error .missingBuildOutput, [])) ∧
    (c.distExists = true →
      (c.custom = none ∨ (∃ cu, c.custom = some cu ∧ cu.client = none) ∨
        (∃ cu cl, c.custom = some cu ∧ cu.client = some cl ∧ cl.bucketName = "")) →
      run c sep s tree sf rf = (.error .missingConfiguration, [])) := by
  constructor
  · intro h
    simp [run, validateAndPrepare, h]
  · intro h hcfg
    rcases hcfg with hc | ⟨cu, hcu, hcl⟩ | ⟨cu, cl, hcu, hcl, hbn⟩
    · simp [run, validateAndPrepare, h, hc]
    · simp [run, validateAndPrepare, h, hcu, hcl]
    · simp [run, validateAndPrepare, h, hcu, hcl, hbn]

/-- C6 witness: a missing `client/dist` directory yields the
missing-build-output failure with an empty trace, and a missing custom
section yields the missing-configuration failure with an empty trace. -/
theorem c6_validation_aborts_witness :
    run ⟨jstr "/srv", false, some ⟨some ⟨"site"⟩⟩⟩ fsl ⟨[]⟩ []
        (fun _ => false) (fun _ => false) =
      (.error .missingBuildOutput, []) ∧
    run ⟨jstr "/srv", true, none⟩ fsl ⟨[]⟩ [] (fun _ => false) (fun _ => false) =
      (.error .missingConfiguration, []) :=
  ⟨(c6_validation_aborts ⟨jstr "/srv", false, some ⟨some ⟨"site"⟩⟩⟩ fsl ⟨[]⟩ []
      (fun _ => false) (fun _ => false)).1 rfl,
    (c6_validation_aborts ⟨jstr "/srv", true, none⟩ fsl ⟨[]⟩ []
      (fun _ => false) (fun _ => false)).2 rfl (Or.inl rfl)⟩

/-- C8: the reconcile trace is exactly the sequence list-buckets,
list-objects (when the bucket exists), delete-objects (when it exists and
is non-empty), create-bucket (when it does not exist), put-bucket-website,
put-bucket-policy, in that order; and on successful validation the run
trace is the reconcile calls followed by the upload-pipeline events, so the
upload starts only after the policy stage. -/
theorem c8_stage_order (b : String) (s : S3State) (c : ServerlessCfg)
    (sep : Char) (tree : List FsTree) (sf rf : JStr → Bool) :
    (reconcile b s).2 =
      [Call.listBuckets] ++
      (if bucketExistsFlag b s then [Call.listObjects b] else []) ++
      (if bucketExistsFlag b s && !(listObjectKeys s b).isEmpty then
        [Call.deleteObjects b (listObjectKeys s b)] else []) ++
      (if bucketExistsFlag b s then [] else [Call.createBucket b]) ++
      [Call.putBucketWebsite b "index.html" "error.html",
        Call.putBucketPolicy b (bucketPolicy b)] ∧
    (∀ bn, validateAndPrepare c = .ok bn →
      (run c sep s tree sf rf).2 =
        ((reconcile bn s).2.map UploadEvent.call) ++
        uploadDirectory (clientPathOf sep c) bn sep sf rf (clientPathOf sep c) tree) := by
  constructor
  · cases hex : bucketExistsFlag b s <;>
      cases hemp : (listObjectKeys s b).isEmpty <;>
        simp [reconcile, hex, hemp]
  · intro bn hok
    simp [run, hok]

/-- C8 witness: on an empty store with a valid configuration the run trace
decomposes into the reconcile calls followed by the upload events. -/
theorem c8_stage_order_witness :
    (run ⟨jstr "/srv", true, some ⟨some ⟨"site"⟩⟩⟩ fsl ⟨[]⟩ []
        (fun _ => false) (fun _ => false)).2 =
      ((reconcile "site" ⟨[]⟩).2.map UploadEvent.call) ++
      uploadDirectory (clientPathOf fsl ⟨jstr "/srv", true, some ⟨some ⟨"site"⟩⟩⟩)
        "site" fsl (fun _ => false) (fun _ => false)
        (clientPathOf fsl ⟨jstr "/srv", true, some ⟨some ⟨"site"⟩⟩⟩) [] :=
  (c8_stage_order "site" ⟨[]⟩ ⟨jstr "/srv", true, some ⟨some ⟨"site"⟩⟩⟩ fsl []
    (fun _ => false) (fun _ => false)).2 "site" rfl

/-- Key carried by a put-object upload event, if any. -/
def eventKey : UploadEvent → Option JStr
  | .call (.putObject _ k _ _) => some k
  | _ => none

/-- C4: the caller-visible result of the run is the same whatever the
per-file stat and read failures are — no read or upload error is ever
observed — and after successful validation the run resolves successfully;
moreover the put-object calls launched (their keys, count and order) do not
depend on which file reads fail. -/
theorem c4_errors_never_observed (c : ServerlessCfg) (sep : Char) (s : S3State)
    (tree : List FsTree) (sf rf : JStr → Bool) :
    (run c sep s tree sf rf).1 =
      (run c sep s tree (fun _ => false) (fun _ => false)).1 ∧
    (∀ bn, validateAndPrepare c = .ok bn →
      (run c sep s tree sf rf).1 = .ok ()) ∧
    (∀ bn, validateAndPrepare c = .ok bn →
      (uploadDirectory (clientPathOf sep c) bn sep (fun _ => false) rf
          (clientPathOf sep c) tree).map eventKey =
        (uploadDirectory (clientPathOf sep c) bn sep (fun _ => false) (fun _ => false)
          (clientPathOf sep c) tree).map eventKey) := by
  refine ⟨?_, ?_, ?_⟩
  · cases hok : validateAndPrepare c <;> simp [run, hok]
  · intro bn hok
    simp [run, hok]
  · intro bn hok
    rw [uploadDirectory_eq, uploadDirectory_eq, List.map_map, List.map_map]
    apply List.map_congr_left
    intro f _
    by_cases hrf : rf f.1 <;> simp [eventKey, hrf]

/-- C4 witness: with every stat and read failing, a validated run still
resolves successfully. -/
theorem c4_errors_never_observed_witness :
    (run ⟨jstr "/srv", true, some ⟨some ⟨"site"⟩⟩⟩ fsl ⟨[]⟩
        [FsTree.file (jstr "x.js") [1]] (fun _ => true) (fun _ => true)).1 = .ok () :=
  (c4_errors_never_observed ⟨jstr "/srv", true, some ⟨some ⟨"site"⟩⟩⟩ fsl ⟨[]⟩
    [FsTree.file (jstr "x.js") [1]] (fun _ => true) (fun _ => true)).2.1 "site" rfl

/-- C9: every uploaded file's content type is the media type resolved from
its path by the mime lookup; a file named `app.js` resolves to the
JavaScript media type, and any path whose extension is not in the lookup
table resolves to the generic binary fallback type. -/
theorem c9_content_type (cp : JStr) (bn : String) (sep : Char) (tree : List FsTree) :
    (∀ f ∈ filesOf sep cp tree,
      UploadEvent.call (Call.putObject bn (fileKey cp f.1) (Body.bytes f.2)
          (mimeLookup f.1)) ∈
        uploadDirectory cp bn sep (fun _ => false) (fun _ => false) cp tree) ∧
    mimeLookup (jstr "app.js") = "application/javascript" ∧
    (∀ p : JStr, mimeTypes.lookup ((extOf p).map Char.toLower) = none →
      mimeLookup p = "application/octet-stream") := by
  refine ⟨?_, by decide, ?_⟩
  · intro f hf
    rw [uploadDirectory_eq]
    have h := List.mem_map_of_mem
      (fun f : JStr × List Nat =>
        UploadEvent.call (Call.putObject bn (fileKey cp f.1)
          (if (fun _ => false) f.1 then Body.undef else Body.bytes f.2)
          (mimeLookup f.1))) hf
    simpa using h
  · intro p h
    simp [mimeLookup, h]

/-- C9 witness: the put event for `app.js` carries the JavaScript media
type, and an unknown extension falls back to the generic binary type. -/
theorem c9_content_type_witness :
    UploadEvent.call (Call.putObject "b"
        (fileKey (jstr "/d") (childPath fsl (jstr "/d") (jstr "app.js")))
        (Body.bytes [7]) (mimeLookup (childPath fsl (jstr "/d") (jstr "app.js")))) ∈
      uploadDirectory (jstr "/d") "b" fsl (fun _ => false) (fun _ => false) (jstr "/d")
        [FsTree.file (jstr "app.js") [7]] ∧
    mimeLookup (jstr "data.xyz") = "application/octet-stream" :=
  ⟨(c9_content_type (jstr "/d") "b" fsl [FsTree.file (jstr "app.js") [7]]).1
      (childPath fsl (jstr "/d") (jstr "app.js"), [7]) (by simp [filesOf]),
    (c9_content_type (jstr "/d") "b" fsl []).2.2 (jstr "data.xyz") (by decide)⟩

/-- C10: filesystem failures during upload are never surfaced as errors:
an entry whose stat fails leads the err-ignoring callback to dereference
the undefined stats value, and a file whose read fails still gets a
put-object call with an undefined body. -/
theorem c10_silent_fs_failures (cp : JStr) (bn : String) (sep : Char)
    (sf rf : JStr → Bool) (d : JStr) (es : List FsTree) :
    (∀ e ∈ es, sf (childPath sep d e.name) = true →
      UploadEvent.undefinedStatsAccess (childPath sep d e.name) ∈
        uploadDirectory cp bn sep sf rf d es) ∧
    (∀ f ∈ filesOf sep d es, rf f.1 = true →
      UploadEvent.call (Call.putObject bn (fileKey cp f.1) Body.undef (mimeLookup f.1)) ∈
        uploadDirectory cp bn sep (fun _ => false) rf d es) := by
  constructor
  · induction es with
    | nil => simp
    | cons e rest ih =>
      intro e' he' hsf
      rcases List.mem_cons.mp he' with rfl | hmem
      · cases e' with
        | file n c =>
          simp only [FsTree.name] at hsf
          simp [uploadDirectory, hsf, FsTree.name]
        | dir n es' =>
          simp only [FsTree.name] at hsf
          simp [uploadDirectory, hsf, FsTree.name]
      · cases e with
        | file n c =>
          simp only [uploadDirectory, List.mem_append]
          exact Or.inr (ih e' hmem hsf)
        | dir n es' =>
          simp only [uploadDirectory, List.mem_append]
          exact Or.inr (ih e' hmem hsf)
  · intro f hf hrf
    rw [uploadDirectory_eq]
    have h := List.mem_map_of_mem
      (fun f : JStr × List Nat =>
        UploadEvent.call (Call.putObject bn (fileKey cp f.1)
          (if rf f.1 then Body.undef else Body.bytes f.2) (mimeLookup f.1))) hf
    simpa [hrf] using h

/-- C10 witness: with a failing stat on `a.txt` the trace records the
undefined-stats access, and with a failing read on `b.txt` the trace still
contains a put with an undefined body. -/
theorem c10_silent_fs_failures_witness :
    UploadEvent.undefinedStatsAccess (childPath fsl (jstr "/d") (jstr "a.txt")) ∈
      uploadDirectory (jstr "/d") "b" fsl
        (fun p => p == childPath fsl (jstr "/d") (jstr "a.txt")) (fun _ => false)
        (jstr "/d") [FsTree.file (jstr "a.txt") [1], FsTree.file (jstr "b.txt") [2]] ∧
    UploadEvent.call (Call.putObject "b"
        (fileKey (jstr "/d") (childPath fsl (jstr "/d") (jstr "b.txt"))) Body.undef
        (mimeLookup (childPath fsl (jstr "/d") (jstr "b.txt")))) ∈
      uploadDirectory (jstr "/d") "b" fsl (fun _ => false)
        (fun p => p == childPath fsl (jstr "/d") (jstr "b.txt"))
        (jstr "/d") [FsTree.file (jstr "a.txt") [1], FsTree.file (jstr "b.txt") [2]] :=
  ⟨(c10_silent_fs_failures (jstr "/d") "b" fsl
      (fun p => p == childPath fsl (jstr "/d") (jstr "a.txt")) (fun _ => false)
      (jstr "/d") [FsTree.file (jstr "a.txt") [1], FsTree.file (jstr "b.txt") [2]]).1
      (FsTree.file (jstr "a.txt") [1]) (by simp) (by decide),
    (c10_silent_fs_failures (jstr "/d") "b" fsl (fun _ => false)
      (fun p => p == childPath fsl (jstr "/d") (jstr "b.txt"))
      (jstr "/d") [FsTree.file (jstr "a.txt") [1], FsTree.file (jstr "b.txt") [2]]).2
      (childPath fsl (jstr "/d") (jstr "b.txt"), [2]) (by simp [filesOf]) (by decide)⟩

/-- C5 counterexample: three concrete refutations of the original claim on
the real key computation.  First, under a backslash separator a file two
directories below the root keeps its second backslash: the computed key is
`css/sub\app.css`, not the fully normalized `css/sub/app.css`, because
`replace` rewrites only the first occurrence.  Second, under a
forward-slash separator the legal POSIX entry name `\foo` gets key `/foo`,
which starts with a separator.  Third, under a forward-slash separator the
legal POSIX entry name `sub\app.css` inside directory `css` collides with
the genuinely nested file `css/sub/app.css`: two distinct files, one key,
so keys are not unique per regular file. -/
theorem c5_counterexample :
    (filesOf bsl (jstr "C:\\srv\\client\\dist")
        [FsTree.dir (jstr "css") [FsTree.dir (jstr "sub")
          [FsTree.file (jstr "app.css") [1]]]] =
      [(jstr "C:\\srv\\client\\dist\\css\\sub\\app.css", [1])] ∧
    fileKey (jstr "C:\\srv\\client\\dist")
        (jstr "C:\\srv\\client\\dist\\css\\sub\\app.css") =
      jstr "css/sub\\app.css" ∧
    specRemoteKey (jstr "C:\\srv\\client\\dist")
        (jstr "C:\\srv\\client\\dist\\css\\sub\\app.css") =
      jstr "css/sub/app.css" ∧
    fileKey (jstr "C:\\srv\\client\\dist")
        (jstr "C:\\srv\\client\\dist\\css\\sub\\app.css") ≠
      specRemoteKey (jstr "C:\\srv\\client\\dist")
        (jstr "C:\\srv\\client\\dist\\css\\sub\\app.css")) ∧
    (filesOf fsl (jstr "/srv/client/dist") [FsTree.file (jstr "\\foo") [3]] =
      [(jstr "/srv/client/dist/\\foo", [3])] ∧
    fileKey (jstr "/srv/client/dist") (jstr "/srv/client/dist/\\foo") =
      jstr "/foo" ∧
    (fileKey (jstr "/srv/client/dist") (jstr "/srv/client/dist/\\foo")).head? =
      some fsl) ∧
    (filesOf fsl (jstr "/srv/client/dist")
        [FsTree.dir (jstr "css") [FsTree.file (jstr "sub\\app.css") [1],
          FsTree.dir (jstr "sub") [FsTree.file (jstr "app.css") [2]]]] =
      [(jstr "/srv/client/dist/css/sub\\app.css", [1]),
        (jstr "/srv/client/dist/css/sub/app.css", [2])] ∧
    jstr "/srv/client/dist/css/sub\\app.css" ≠
      jstr "/srv/client/dist/css/sub/app.css" ∧
    fileKey (jstr "/srv/client/dist") (jstr "/srv/client/dist/css/sub\\app.css") =
      fileKey (jstr "/srv/client/dist") (jstr "/srv/client/dist/css/sub/app.css") ∧
    ¬ ((filesOf fsl (jstr "/srv/client/dist")
        [FsTree.dir (jstr "css") [FsTree.file (jstr "sub\\app.css") [1],
          FsTree.dir (jstr "sub") [FsTree.file (jstr "app.css") [2]]]]).map
      (fun f => fileKey (jstr "/srv/client/dist") f.1)).Nodup) := by
  refine ⟨⟨?_, by decide, by decide, by decide⟩,
    ⟨?_, by decide, by decide⟩, ⟨?_, by decide, by decide, ?_⟩⟩ <;>
    (simp only [filesOf, childPath]; decide)

/-- C5 amended: for every regular file under the root the remote key is the
file's local path with the root prefix and the following separator stripped
and only the FIRST backslash (if any) replaced by a forward slash — this
part holds with no restriction on entry names.  The remaining invariants of
the original claim are false for the program in general (a POSIX name
beginning with a backslash yields a key that starts with a separator, and a
POSIX name containing a backslash collides with a genuine nested path, as
the counterexample shows); they hold exactly when entry names are free of
backslashes: then every key is non-empty, never starts with a separator,
and keys are unique per regular file under the root. -/
theorem c5_amended_key_shape (sep : Char) (cp : JStr) (tree : List FsTree) :
    (∀ f ∈ filesOf sep cp tree,
      ∃ comps, comps ≠ [] ∧ f.1 = cp ++ sep :: joinComps sep comps ∧
        fileKey cp f.1 = replaceFirst [bsl] [fsl] (joinComps sep comps)) ∧
    (wfEntries sep tree = true →
      (∀ f ∈ filesOf sep cp tree,
        fileKey cp f.1 ≠ [] ∧
        ∀ h, (fileKey cp f.1).head? = some h → h ≠ sep ∧ h ≠ fsl ∧ h ≠ bsl) ∧
      ((filesOf sep cp tree).map (fun f => fileKey cp f.1)).Nodup) := by
  constructor
  · intro f hf
    rw [filesOf_eq] at hf
    obtain ⟨g, hg, rfl⟩ := List.mem_map.mp hf
    dsimp only
    exact ⟨g.1, filesRel_fst_ne_nil tree g hg, rfl,
      fileKey_strip cp (joinComps sep g.1) sep⟩
  · intro hwf
    constructor
    · intro f hf
      rw [filesOf_eq] at hf
      obtain ⟨g, hg, rfl⟩ := List.mem_map.mp hf
      dsimp only
      have hgood := filesRel_good_spec tree hwf g hg
      have hne : g.1 ≠ [] := filesRel_fst_ne_nil tree g hg
      obtain ⟨x, xs, hx1⟩ := List.exists_cons_of_ne_nil hne
      have hxmem : x ∈ g.1 := by rw [hx1]; simp
      have hxne : x ≠ [] := (hgood x hxmem).1
      obtain ⟨c0, x', hc0⟩ := List.exists_cons_of_ne_nil hxne
      have hc0mem : c0 ∈ x := by rw [hc0]; simp
      have hc0good := (hgood x hxmem).2 c0 hc0mem
      obtain ⟨t, ht⟩ := joinComps_head sep x xs
      have hkey : fileKey cp (cp ++ sep :: joinComps sep g.1) =
          c0 :: replaceFirst [bsl] [fsl] (x' ++ t) := by
        rw [fileKey_strip, hx1, ht, hc0, List.cons_append, replaceFirst_head hc0good.2.2]
      refine ⟨?_, ?_⟩
      · rw [hkey]
        simp
      · intro h hh
        rw [hkey] at hh
        simp only [List.head?_cons, Option.some.injEq] at hh
        rw [← hh]
        exact hc0good
    · exact fileKeys_nodup cp tree hwf

/-- C5 amended witness: the prefix-strip and first-backslash description
holds at a concrete traversed file, and on a two-level backslash-free
forward-slash tree all keys are distinct. -/
theorem c5_amended_key_shape_witness :
    (∃ comps, comps ≠ [] ∧
      (childPath fsl (jstr "/srv/client/dist") (jstr "index.html"), ([2] : List Nat)).1 =
        jstr "/srv/client/dist" ++ fsl :: joinComps fsl comps ∧
      fileKey (jstr "/srv/client/dist")
          (childPath fsl (jstr "/srv/client/dist") (jstr "index.html"),
            ([2] : List Nat)).1 =
        replaceFirst [bsl] [fsl] (joinComps fsl comps)) ∧
    ((filesOf fsl (jstr "/srv/client/dist")
        [FsTree.dir (jstr "css") [FsTree.file (jstr "app.css") [1]],
          FsTree.file (jstr "index.html") [2]]).map
      (fun f => fileKey (jstr "/srv/client/dist") f.1)).Nodup :=
  ⟨(c5_amended_key_shape fsl (jstr "/srv/client/dist")
      [FsTree.dir (jstr "css") [FsTree.file (jstr "app.css") [1]],
        FsTree.file (jstr "index.html") [2]]).1
      (childPath fsl (jstr "/srv/client/dist") (jstr "index.html"), [2])
      (by simp [filesOf]),
    ((c5_amended_key_shape fsl (jstr "/srv/client/dist")
      [FsTree.dir (jstr "css") [FsTree.file (jstr "app.css") [1]],
        FsTree.file (jstr "index.html") [2]]).2
      (by simp only [wfEntries]; decide)).2⟩

end ServerlessClientS3
